import Mathlib

/-!
# Verification of the `oxicoin` secp256k1 core

A shallow embedding of the secp256k1 field arithmetic, curve arithmetic,
ECDSA signature routines and the SEC/DER codecs of the `oxicoin` crate
(`src/secp256k1/{field,curve,signature,crypto}.rs` plus `src/utils.rs`),
together with theorems settling the specification claims about them.

Machine integers of the source (`BigUint`) are modelled as `Nat`.
Fallible Rust functions returning `Result<T, Error>` are modelled as
`Except Error T`; a Rust panic (index out of bounds or `Option::unwrap`
on `None`) is modelled by an outer `Option` layer whose `none` value
marks the panic.
-/

set_option maxRecDepth 1000000

deriving instance DecidableEq for Except

namespace Oxicoin

/-- The error enum of `src/lib.rs` (the variants reachable from the
secp256k1 core).  `ioError` stands for the `IoError` variant produced by
a failing `read_exact` during DER deserialization. -/
inductive Error where
  | custom (msg : String)
  | ioError
  | pointNotOnTheCurve
  | overflowPadding
  | serializePointAtInfinity
  | invalidDigestLength (got : Nat)
  | invalidSecBytesLength (got : Nat)
  | invalidSignature (msg : String)
  deriving DecidableEq, Repr

/-- `secp256k1` field prime `2^256 - 2^32 - 977`
(`PRIME` in `src/secp256k1/field.rs`). -/
def PRIME : Nat :=
  0xfffffffffffffffffffffffffffffffffffffffffffffffffffffffefffffc2f

/-- The curve group order (`ORDER` in `src/secp256k1/mod.rs`; used as `N`
by `signature.rs` and `crypto.rs`). -/
def N : Nat :=
  0xfffffffffffffffffffffffffffffffebaaedce6af48a03bbfd25e8cd0364141

/-- x-coordinate of the base point (`GX_IN_HEX` in `src/secp256k1/mod.rs`). -/
def GX : Nat :=
  0x79be667ef9dcbbac55a06295ce870b07029bfcdb2dce28d959f2815b16f81798

/-- y-coordinate of the base point (`GY_IN_HEX` in `src/secp256k1/mod.rs`). -/
def GY : Nat :=
  0x483ada7726a3c4655da4fbfc0e1108a8fd17b448a68554199c47d08ffb10d4b8

/-- Fuel-bounded modular exponentiation.  `BigUint::modpow` of the source
is exact for every exponent; this model is exact for exponents below
`2 ^ fuel` (see `modPowGo_correct`), which covers every exponent the
embedded code ever passes (all are below `2 ^ 320`). -/
def modPowGo : Nat → Nat → Nat → Nat → Nat
  | 0, _, _, m => 1 % m
  | fuel + 1, b, e, m =>
    if e = 0 then 1 % m
    else
      let r := modPowGo fuel (b * b % m) (e / 2) m
      if e % 2 = 1 then r * (b % m) % m else r

/-- `BigUint::modpow(b, e, m)`: `b ^ e mod m`, exact for `e < 2 ^ 320`. -/
def modPow (b e m : Nat) : Nat := modPowGo 320 b e m

/-- `FieldElement` of `src/secp256k1/field.rs`: a wrapped `BigUint`.
The `number < PRIME` invariant is a property maintained by the
operations (claim C3), not part of the type. -/
structure FieldElement where
  number : Nat
  deriving DecidableEq, Repr

namespace FieldElement

/-- `FieldElement::new`: reduces the input modulo `PRIME`. -/
def new (n : Nat) : FieldElement := ⟨n % PRIME⟩

/-- `FieldElement::add_inv`: `Self(&*PRIME - &self.0)` — note the source
builds the struct directly, without the reducing constructor `new`. -/
def add_inv (a : FieldElement) : FieldElement := ⟨PRIME - a.number⟩

/-- `Pow<E> for &FieldElement`: a non-negative exponent is used as is,
a negative one is first reduced with `mod_floor` by `PRIME - 1`. -/
def pow (a : FieldElement) (e : Int) : FieldElement :=
  let exponent : Nat :=
    if 0 ≤ e then e.toNat else (e.emod (Int.ofNat (PRIME - 1))).toNat
  ⟨modPow a.number exponent PRIME⟩

/-- `FieldElement::mul_inv`: Fermat inverse `a ^ (PRIME - 2) mod PRIME`. -/
def mul_inv (a : FieldElement) : FieldElement := a.pow (Int.ofNat (PRIME - 2))

/-- `Add for FieldElement`: `(a + b) mod PRIME`, rebuilt through `new`. -/
def fadd (a b : FieldElement) : FieldElement := new ((a.number + b.number) % PRIME)

/-- `Sub for FieldElement`: `a + add_inv b`. -/
def fsub (a b : FieldElement) : FieldElement := fadd a (add_inv b)

/-- `Mul for FieldElement`: `(a * b) mod PRIME`, rebuilt through `new`. -/
def fmul (a b : FieldElement) : FieldElement := new ((a.number * b.number) % PRIME)

/-- `Div for FieldElement`: `a * mul_inv b`. -/
def fdiv (a b : FieldElement) : FieldElement := fmul a (mul_inv b)

/-- `Mul<usize> for FieldElement`: multiply by `FieldElement::new k`. -/
def smul (a : FieldElement) (k : Nat) : FieldElement := fmul a (new k)

/-- `One for FieldElement`: the raw struct around `BigUint::one()`. -/
def one : FieldElement := ⟨1⟩

/-- Modelled from the spec: `FieldElement::sqrt` is called by
`Point::deserialize` in `src/secp256k1/curve.rs` but its definition is
missing from the sources; §4.1 of the spec defines it as
`a ^ ((PRIME + 1) / 4) mod PRIME`. -/
def sqrt (a : FieldElement) : FieldElement := a.pow (Int.ofNat ((PRIME + 1) / 4))

end FieldElement

open FieldElement

/-- The fixed curve constant `B = FieldElement::new(7)`. -/
def Bconst : FieldElement := FieldElement.new 7

/-- `EllipticCurve` of `src/secp256k1/curve.rs`. -/
structure EllipticCurve where
  a : FieldElement
  b : FieldElement
  deriving DecidableEq, Repr

/-- The global curve `ECURVE = EllipticCurve::new(0, 7)`. -/
def ECURVE : EllipticCurve := ⟨FieldElement.new 0, FieldElement.new 7⟩

/-- `EllipticCurve::contains`: `y^2 == x^3 + a*x + b`. -/
def contains (c : EllipticCurve) (x y : FieldElement) : Bool :=
  decide (y.pow 2 = fadd (fadd (x.pow 3) (fmul c.a x)) c.b)

/-- `Point` of `src/secp256k1/curve.rs`. -/
inductive Point where
  | atInfinity
  | normal (x y : FieldElement)
  deriving DecidableEq, Repr

namespace Point

/-- `Point::new`: on-curve check against the global `ECURVE`. -/
def new (x y : FieldElement) : Except Error Point :=
  if contains ECURVE x y then .ok (.normal x y) else .error .pointNotOnTheCurve

/-- `Point::x` (`None` at infinity). -/
def xcoord : Point → Option FieldElement
  | .atInfinity => none
  | .normal x _ => some x

end Point

/-- `Add for &Point` of `src/secp256k1/curve.rs`, case for case. -/
def padd : Point → Point → Point
  | .atInfinity, p => p
  | p, .atInfinity => p
  | .normal x1 y1, .normal x2 y2 =>
    if x1 = x2 then
      if y1 = y2 then
        if y1.number = 0 then .atInfinity
        else
          let slope := fdiv (fadd (smul (x1.pow 2) 3) ECURVE.a) (smul y1 2)
          let x3 := fsub (slope.pow 2) (smul x1 2)
          let y3 := fsub (fmul slope (fsub x1 x3)) y1
          .normal x3 y3
      else .atInfinity
    else
      let slope := fdiv (fsub y2 y1) (fsub x2 x1)
      let x3 := fsub (fsub (slope.pow 2) x1) x2
      let y3 := fsub (fmul slope (fsub x1 x3)) y1
      .normal x3 y3

/-- The double-and-add loop of `Mul for &Point`.  The source loops until
`coef` becomes zero; since the reduced coefficient is below
`PRIME < 2 ^ 256`, a fuel of `257` runs the loop to completion. -/
def mulGo : Nat → Nat → Point → Point → Point
  | 0, _, result, _ => result
  | fuel + 1, coef, result, current =>
    if coef = 0 then result
    else
      mulGo fuel (coef / 2)
        (if coef % 2 = 1 then padd result current else result)
        (padd current current)

/-- `Mul for &Point`: the coefficient is first reduced modulo `PRIME`
(the field prime — not the group order `N`), then double-and-add. -/
def pmul (p : Point) (coef : Nat) : Point :=
  mulGo 257 (coef % PRIME) Point.atInfinity p

/-- The base point `GENERATOR` of `src/secp256k1/mod.rs` (`G`). -/
def G : Point := Point.normal (FieldElement.new GX) (FieldElement.new GY)

/-- `BigUint::from_bytes_be`: big-endian bytes to integer. -/
def fromBytesBe (bytes : List Nat) : Nat :=
  bytes.foldl (fun acc b => acc * 256 + b) 0

/-- Loop of `BigUint::to_bytes_be` for a nonzero input, fuel-bounded:
exact whenever `n < 256 ^ fuel`. -/
def toBytesBeGo : Nat → Nat → List Nat
  | 0, _ => []
  | fuel + 1, n => if n = 0 then [] else toBytesBeGo fuel (n / 256) ++ [n % 256]

/-- `BigUint::to_bytes_be`: minimal big-endian bytes; `[0]` for zero.
Exact for `n < 256 ^ 64`, which covers every value the embedded code
serializes (all are below `2 ^ 512`). -/
def toBytesBe (n : Nat) : List Nat :=
  if n = 0 then [0] else toBytesBeGo 64 n

/-- `prepend_padding` of `src/utils.rs`. -/
def prepend_padding (vec : List Nat) (size : Nat) (w : Nat) : Except Error (List Nat) :=
  if size < vec.length then .error .overflowPadding
  else .ok (List.replicate (size - vec.length) w ++ vec)

/-- `strip_start` of `src/utils.rs`: drop the leading elements equal to
`elem` (all of them, if every element matches).  The source indexes
`arr[0]` before testing and so panics on an empty slice; it is only ever
called on the output of `to_bytes_be`, which is never empty, and this
model returns `[]` there. -/
def strip_start : List Nat → Nat → List Nat
  | [], _ => []
  | x :: xs, elem => if x = elem then strip_start xs elem else x :: xs

/-- `Signature` of `src/secp256k1/signature.rs`. -/
structure Signature where
  r : Nat
  s : Nat
  deriving DecidableEq, Repr

namespace Signature

/-- `Signature::new`: stores `r` and `s` with no range validation. -/
def new (r s : Nat) : Signature := ⟨r, s⟩

end Signature

/-- The DER encoding of one integer component: strip leading zero bytes,
then re-prepend `0x00` when the top bit of the first byte is set.  The
source indexes `bytes[0]` after stripping and so panics when the value
is zero (`to_bytes_be(0) = [0]` strips to `[]`); `none` models that
panic. -/
def derComponent (n : Nat) : Option (List Nat) :=
  match strip_start (toBytesBe n) 0x00 with
  | [] => none
  | b :: bs =>
    if b &&& 0x80 = 0x80 then some (0x00 :: b :: bs) else some (b :: bs)

/-- `Signature::serialize` (DER).  The Rust signature returns
`Result<Vec<u8>, Error>` but no path produces an `Err`; the outer
`Option` models the panic on a zero component. -/
def derSerialize (sig : Signature) : Option (Except Error (List Nat)) := do
  let rB ← derComponent sig.r
  let sB ← derComponent sig.s
  let result := 0x02 :: rB.length :: rB ++ 0x02 :: sB.length :: sB
  some (.ok (0x30 :: result.length :: result))

/-- `Signature::deserialize` (DER).  A failing `read_exact` surfaces as
the `IoError` variant through the `?` operator.  Note the source reads
the second component's size from `buf[0]` — the `0x02` marker it just
checked — rather than from `buf[1]`. -/
def derDeserialize (bytes : List Nat) : Except Error Signature :=
  let size := bytes.length
  match bytes with
  | b0 :: b1 :: b2 :: b3 :: rest =>
    if b0 ≠ 0x30 then .error (.invalidSignature "bad compound")
    else if (b1 + 2) % 256 ≠ size then .error (.invalidSignature "bad signature size")
    else if b2 ≠ 0x02 then .error (.invalidSignature "bad marker")
    else
      let r_size := b3
      if rest.length < r_size then .error .ioError
      else
        let r := fromBytesBe (rest.take r_size)
        match rest.drop r_size with
        | c0 :: _c1 :: rest3 =>
          if c0 ≠ 0x02 then .error (.invalidSignature "bad marker")
          else
            let s_size := c0
            if rest3.length < s_size then .error .ioError
            else
              let s := fromBytesBe (rest3.take s_size)
              if size ≠ 6 + r_size + s_size then .error (.invalidSignature "signature too long")
              else .ok ⟨r, s⟩
        | _ => .error .ioError
  | _ => .error .ioError

/-- `Point::serialize` (SEC format). -/
def secSerialize (p : Point) (compressed : Bool) : Except Error (List Nat) :=
  match p with
  | .normal x y =>
    if compressed then do
      let xB ← prepend_padding (toBytesBe x.number) 32 0
      let evenness := if y.number % 2 = 0 then 0x02 else 0x03
      .ok (evenness :: xB)
    else do
      let xB ← prepend_padding (toBytesBe x.number) 32 0
      let yB ← prepend_padding (toBytesBe y.number) 32 0
      .ok (0x04 :: (xB ++ yB))
  | _ => .error .serializePointAtInfinity

/-- `Point::deserialize` (SEC format).  On the compressed path the point
is built directly (`Ok(Self::Normal(x, y))`, "no need to check") without
the on-curve validation of `Point::new`.  The outer `Option` models the
slice panic of `&bytes[33..65]` when a 33-byte input starts with `0x04`. -/
def secDeserialize (bytes : List Nat) : Option (Except Error Point) :=
  let length := bytes.length
  if length ≠ 33 ∧ length ≠ 65 then some (.error (.invalidSecBytesLength length))
  else if bytes.headD 0 = 0x04 then
    if length = 33 then none
    else
      let x := FieldElement.new (fromBytesBe ((bytes.drop 1).take 32))
      let y := FieldElement.new (fromBytesBe ((bytes.drop 33).take 32))
      some (Point.new x y)
  else
    let yIsEven : Bool := decide (bytes.headD 0 = 0x02)
    let x := FieldElement.new (fromBytesBe (bytes.drop 1))
    let alpha := fadd (x.pow 3) Bconst
    let beta := sqrt alpha
    let y :=
      if decide (beta.number % 2 = 0) = yIsEven then beta
      else FieldElement.new (PRIME - beta.number)
    some (.ok (.normal x y))

/-- `PublicKey` of `src/secp256k1/crypto.rs`: wraps a curve point. -/
structure PublicKey where
  ec_point : Point
  deriving DecidableEq, Repr

/-- `Signature::is_valid`.  The outer `Option` models the
`total.x().unwrap()` panic when `u·G + v·Q` is the point at infinity. -/
def isValid (sig : Signature) (digest : List Nat) (pubKey : PublicKey) :
    Option (Except Error Bool) :=
  if digest.length ≠ 32 then some (.error (.invalidDigestLength digest.length))
  else
    let z := fromBytesBe digest
    let sInv := modPow sig.s (N - 2) N
    let u := z * sInv % N
    let v := sig.r * sInv % N
    let total := padd (pmul G u) (pmul pubKey.ec_point v)
    match total with
    | .normal x _ => some (.ok (decide (x.number = sig.r)))
    | .atInfinity => none

/-- `PrivateKey::create_signature` with the nonce abstracted.
`deterministic_k` first pads the secret's big-endian bytes to 32 bytes
with the fallible `prepend_padding` — for a secret of more than 32
bytes this is an `Err(OverflowPadding)` that `create_signature`
propagates through its `?` — and then runs an HMAC-SHA256 byte
generator built on the external `hmac`/`sha2` crates; that generator is
abstracted here by the parameter `k` (its only contract used by the
caller: `1 ≤ k < N`), and it is the only other thing `deterministic_k`
does (its local `z` is never used after its conditional subtraction).
`none` models the `(G * k).x().unwrap()` panic at the point at
infinity. -/
def createSignatureWithK (secret : Nat) (digest : List Nat) (k : Nat) :
    Option (Except Error Signature) :=
  match prepend_padding (toBytesBe secret) 32 0 with
  | .error e => some (.error e)
  | .ok _ =>
    match pmul G k with
    | .atInfinity => none
    | .normal x _ =>
      let r := x.number
      let kInv := modPow k (N - 2) N
      let z := fromBytesBe digest
      let s := (z + r * secret) * kInv % N
      let s := if N / 2 < s then N - s else s
      some (.ok ⟨r, s⟩)

/-- A field element whose representative is reduced: the `number < PRIME`
invariant of the spec. -/
def Reduced (a : FieldElement) : Prop := a.number < PRIME

/-- Interpretation of a `FieldElement` in the mathematical field
`ZMod PRIME`. -/
def toZ (a : FieldElement) : ZMod PRIME := (a.number : ZMod PRIME)

/-- The curve equation `y² = x³ + 7`, stated in `ZMod PRIME`. -/
def OnCurve (x y : FieldElement) : Prop := toZ y ^ 2 = toZ x ^ 3 + 7

/-- A point that is either the identity or a reduced point on the curve:
the invariant preserved by the group operations. -/
def GoodPoint : Point → Prop
  | .atInfinity => True
  | .normal x y => Reduced x ∧ Reduced y ∧ OnCurve x y

/-- The secp256k1 curve `y² = x³ + 7` as a Weierstrass curve over
`ZMod PRIME`, used to borrow Mathlib's group-law algebra. -/
def Wcurve : WeierstrassCurve.Affine (ZMod PRIME) :=
  { a₁ := 0, a₂ := 0, a₃ := 0, a₄ := 0, a₆ := 7 }

/-! ## Theorems -/

theorem PRIME_pos : 0 < PRIME := by decide

@[instance] theorem neZero_PRIME : NeZero PRIME := ⟨by decide⟩

/-- `modPowGo` computes `b ^ e % m` whenever the fuel covers the
exponent's bits. -/
theorem modPowGo_correct (fuel : Nat) :
    ∀ b e m : Nat, e < 2 ^ fuel → modPowGo fuel b e m = b ^ e % m := by
  induction fuel with
  | zero =>
    intro b e m he
    interval_cases e
    simp [modPowGo]
  | succ fuel ih =>
    intro b e m he
    by_cases he0 : e = 0
    · simp [modPowGo, he0]
    · have hdiv : e / 2 < 2 ^ fuel := by
        have : e < 2 ^ fuel * 2 := by
          rw [pow_succ] at he; exact he
        omega
      have hrec := ih (b * b % m) (e / 2) m hdiv
      have hbb : (b * b % m) ^ (e / 2) % m = (b * b) ^ (e / 2) % m := by
        rw [Nat.pow_mod, Nat.mod_mod_of_dvd _ dvd_rfl, ← Nat.pow_mod]
      have hsplit : e = 2 * (e / 2) + e % 2 := (Nat.div_add_mod e 2).symm.trans (by ring)
      rcases Nat.mod_two_eq_zero_or_one e with hpar | hpar
      · have hmul : b ^ e = (b * b) ^ (e / 2) := by
          conv_lhs => rw [hsplit]
          rw [hpar, Nat.add_zero, pow_mul]
          ring_nf
        simp only [modPowGo, if_neg he0]
        rw [if_neg (by omega), hrec, hbb, hmul]
      · have hmul : b ^ e = (b * b) ^ (e / 2) * b := by
          conv_lhs => rw [hsplit]
          rw [hpar, pow_add, pow_mul, pow_one]
          ring_nf
        simp only [modPowGo, if_neg he0]
        rw [if_pos hpar, hrec, hbb, hmul]
        conv_rhs => rw [Nat.mul_mod]

/-- `modPow` computes `b ^ e % m` for every exponent below `2 ^ 320`. -/
theorem modPow_correct (b e m : Nat) (he : e < 2 ^ 320) :
    modPow b e m = b ^ e % m :=
  modPowGo_correct 320 b e m he

/-- Every branch of `modPowGo` reduces modulo `m`, so the result is
below a positive modulus regardless of fuel. -/
theorem modPowGo_lt (fuel : Nat) :
    ∀ b e m : Nat, 0 < m → modPowGo fuel b e m < m := by
  induction fuel with
  | zero => intro b e m hm; simpa [modPowGo] using Nat.mod_lt _ hm
  | succ fuel ih =>
    intro b e m hm
    simp only [modPowGo]
    split
    · exact Nat.mod_lt _ hm
    · split
      · exact Nat.mod_lt _ hm
      · exact ih _ _ _ hm

/-! ### Byte codec lemmas -/

theorem foldl_byte_acc (l : List Nat) :
    ∀ a : Nat, l.foldl (fun acc b => acc * 256 + b) a
      = a * 256 ^ l.length + l.foldl (fun acc b => acc * 256 + b) 0 := by
  induction l with
  | nil => intro a; simp
  | cons x l ih =>
    intro a
    simp only [List.foldl_cons, List.length_cons]
    rw [ih (a * 256 + x), ih (0 * 256 + x)]
    ring

theorem fromBytesBe_append (l1 l2 : List Nat) :
    fromBytesBe (l1 ++ l2) = fromBytesBe l1 * 256 ^ l2.length + fromBytesBe l2 := by
  unfold fromBytesBe
  rw [List.foldl_append]
  exact foldl_byte_acc l2 _

theorem fromBytesBe_replicate_zero (j : Nat) :
    fromBytesBe (List.replicate j 0) = 0 := by
  induction j with
  | zero => rfl
  | succ j ih =>
    rw [List.replicate_succ]
    unfold fromBytesBe at ih ⊢
    simpa using ih

theorem fromBytesBe_pad (j : Nat) (l : List Nat) :
    fromBytesBe (List.replicate j 0 ++ l) = fromBytesBe l := by
  rw [fromBytesBe_append, fromBytesBe_replicate_zero]
  simp

theorem toBytesBeGo_spec (fuel : Nat) :
    ∀ n : Nat, n < 256 ^ fuel → fromBytesBe (toBytesBeGo fuel n) = n := by
  induction fuel with
  | zero =>
    intro n hn
    interval_cases n
    rfl
  | succ fuel ih =>
    intro n hn
    by_cases h0 : n = 0
    · simp [toBytesBeGo, h0, fromBytesBe]
    · simp only [toBytesBeGo, if_neg h0]
      rw [fromBytesBe_append, ih (n / 256) (by rw [pow_succ] at hn; omega)]
      show n / 256 * 256 ^ 1 + (0 * 256 + n % 256) = n
      simp only [pow_one, Nat.zero_mul, Nat.zero_add]
      omega

theorem toBytesBeGo_length (fuel : Nat) :
    ∀ n k : Nat, n < 256 ^ k → (toBytesBeGo fuel n).length ≤ k := by
  induction fuel with
  | zero => intro n k _; simp [toBytesBeGo]
  | succ fuel ih =>
    intro n k hn
    by_cases h0 : n = 0
    · simp [toBytesBeGo, h0]
    · have hk : 1 ≤ k := by
        rcases Nat.eq_zero_or_pos k with hk0 | hk0
        · rw [hk0, pow_zero] at hn; omega
        · exact hk0
      simp only [toBytesBeGo, if_neg h0, List.length_append, List.length_cons,
        List.length_nil]
      have hdiv : n / 256 < 256 ^ (k - 1) := by
        have : n < 256 ^ (k - 1) * 256 := by
          have hkk : k - 1 + 1 = k := by omega
          rw [← pow_succ, hkk]; exact hn
        exact Nat.div_lt_of_lt_mul (by omega)
      have := ih (n / 256) (k - 1) hdiv
      omega

theorem toBytesBe_spec (n : Nat) (h : n < 256 ^ 64) :
    fromBytesBe (toBytesBe n) = n := by
  unfold toBytesBe
  by_cases h0 : n = 0
  · simp [h0, fromBytesBe]
  · rw [if_neg h0]
    exact toBytesBeGo_spec 64 n h

theorem toBytesBe_length (n k : Nat) (h : n < 256 ^ k) (hk : 1 ≤ k) :
    (toBytesBe n).length ≤ k := by
  unfold toBytesBe
  by_cases h0 : n = 0
  · simpa [h0] using hk
  · rw [if_neg h0]
    exact toBytesBeGo_length 64 n k h

theorem pad32_spec (x : Nat) (h : x < 256 ^ 32) :
    ∃ xB : List Nat, prepend_padding (toBytesBe x) 32 0 = .ok xB
      ∧ xB.length = 32 ∧ fromBytesBe xB = x := by
  have hlen := toBytesBe_length x 32 h (by omega)
  refine ⟨List.replicate (32 - (toBytesBe x).length) 0 ++ toBytesBe x, ?_, ?_, ?_⟩
  · unfold prepend_padding
    rw [if_neg (by omega)]
  · simp only [List.length_append, List.length_replicate]
    omega
  · rw [fromBytesBe_pad]
    exact toBytesBe_spec x (lt_of_lt_of_le h (by norm_num))

/-! ### The `number < PRIME` invariant -/

theorem new_reduced (n : Nat) : Reduced (FieldElement.new n) :=
  Nat.mod_lt _ PRIME_pos

theorem pow_reduced (a : FieldElement) (e : Int) : Reduced (a.pow e) :=
  modPowGo_lt 320 _ _ _ PRIME_pos

theorem fadd_reduced (a b : FieldElement) : Reduced (fadd a b) := new_reduced _

theorem fsub_reduced (a b : FieldElement) : Reduced (fsub a b) := new_reduced _

theorem fmul_reduced (a b : FieldElement) : Reduced (fmul a b) := new_reduced _

theorem fdiv_reduced (a b : FieldElement) : Reduced (fdiv a b) := new_reduced _

theorem smul_reduced (a : FieldElement) (k : Nat) : Reduced (smul a k) := new_reduced _

theorem mul_inv_reduced (a : FieldElement) : Reduced a.mul_inv := pow_reduced _ _

theorem sqrt_reduced (a : FieldElement) : Reduced a.sqrt := pow_reduced _ _

/-! ### Transfer to `ZMod PRIME` -/

theorem FieldElement.ext_number {a b : FieldElement} (h : a.number = b.number) :
    a = b := by
  cases a; cases b; cases h; rfl

theorem toZ_inj {a b : FieldElement} (ha : Reduced a) (hb : Reduced b)
    (h : toZ a = toZ b) : a = b := by
  have := congrArg ZMod.val h
  rw [toZ, toZ, ZMod.val_cast_of_lt ha, ZMod.val_cast_of_lt hb] at this
  exact FieldElement.ext_number this

theorem toZ_new (n : Nat) : toZ (FieldElement.new n) = (n : ZMod PRIME) := by
  show ((n % PRIME : ℕ) : ZMod PRIME) = (n : ZMod PRIME)
  exact ZMod.natCast_mod n PRIME

theorem toZ_fadd (a b : FieldElement) : toZ (fadd a b) = toZ a + toZ b := by
  show (((a.number + b.number) % PRIME % PRIME : ℕ) : ZMod PRIME) = _
  rw [ZMod.natCast_mod, ZMod.natCast_mod, Nat.cast_add]
  rfl

theorem toZ_fmul (a b : FieldElement) : toZ (fmul a b) = toZ a * toZ b := by
  show (((a.number * b.number) % PRIME % PRIME : ℕ) : ZMod PRIME) = _
  rw [ZMod.natCast_mod, ZMod.natCast_mod, Nat.cast_mul]
  rfl

theorem toZ_add_inv (a : FieldElement) (h : a.number ≤ PRIME) :
    toZ a.add_inv = - toZ a := by
  show ((PRIME - a.number : ℕ) : ZMod PRIME) = _
  rw [Nat.cast_sub h, ZMod.natCast_self, zero_sub]
  rfl

theorem toZ_fsub (a b : FieldElement) (hb : Reduced b) :
    toZ (fsub a b) = toZ a - toZ b := by
  show toZ (fadd a (FieldElement.add_inv b)) = _
  rw [toZ_fadd, toZ_add_inv b (le_of_lt hb), sub_eq_add_neg]

theorem toZ_pow_nat (a : FieldElement) (e : Nat) (he : e < 2 ^ 320) :
    toZ (a.pow (Int.ofNat e)) = toZ a ^ e := by
  unfold FieldElement.pow toZ
  dsimp only
  split
  · rw [show (Int.ofNat e).toNat = e from rfl, modPow_correct _ _ _ he,
      ZMod.natCast_mod, Nat.cast_pow]
  · next h => exact absurd (Int.ofNat_nonneg e) h

theorem toZ_smul (a : FieldElement) (k : Nat) :
    toZ (smul a k) = toZ a * (k : ZMod PRIME) := by
  show toZ (fmul a (FieldElement.new k)) = _
  rw [toZ_fmul, toZ_new]

set_option maxHeartbeats 4000000 in
/-- C1 counterexample: scalar multiplication is not invariant under
reduction of the scalar modulo the group order `N`.  At `P = G` and
`k = PRIME` the implementation reduces `k` modulo the field prime and
returns the point at infinity, while `(k mod N)·G = (PRIME - N)·G` is a
normal point. -/
theorem pmul_not_mod_N : pmul G PRIME ≠ pmul G (PRIME % N) := by decide

/-- C1 (amended): the double-and-add `Mul` implementation on `Point`
reduces the scalar modulo the field prime `PRIME`, not the group order:
`k·P = (k mod PRIME)·P` for every point `P` and scalar `k`. -/
theorem pmul_mod_PRIME (p : Point) (k : Nat) : pmul p k = pmul p (k % PRIME) := by
  unfold pmul
  rw [Nat.mod_mod_of_dvd k dvd_rfl]

/-- C2: DER round trip fails.  `Signature::deserialize` reads the second
component's size from `buf[0]` (the `0x02` marker byte, value 2) instead
of `buf[1]`, so deserializing the serialization of the signature
`(r, s) = (1, 1)` fails with an io error (`read_exact` runs out of
bytes) instead of returning the signature. -/
theorem der_round_trip_fails :
    derSerialize (Signature.new 1 1) =
      some (.ok [0x30, 0x06, 0x02, 0x01, 0x01, 0x02, 0x01, 0x01])
    ∧ derDeserialize [0x30, 0x06, 0x02, 0x01, 0x01, 0x02, 0x01, 0x01] =
      .error .ioError := by
  constructor <;> decide

/-- C3: `FieldElement::add_inv` builds its result with the raw struct
constructor instead of the reducing `FieldElement::new`, so the additive
inverse of the zero element is `FieldElement(PRIME)`: its `number` field
is not below `PRIME` and it is not structurally equal to zero. -/
theorem add_inv_zero_bug :
    (FieldElement.new 0).add_inv = ⟨PRIME⟩
    ∧ ¬ (FieldElement.new 0).add_inv.number < PRIME
    ∧ (FieldElement.new 0).add_inv ≠ FieldElement.new 0 := by
  refine ⟨by decide, by decide, by decide⟩

set_option maxHeartbeats 8000000 in
/-- C7: multiplying the base point `G` by the group order `N` yields the
point at infinity. -/
theorem order_mul_generator : pmul G N = Point.atInfinity := by decide

/-- C8 counterexample: a signature with `s = 0` is not processed to a
boolean verdict.  With `u = v = 0` the point `u·G + v·Q` is the point at
infinity and `is_valid` hits the `total.x().unwrap()` panic (modelled by
`none`) instead of returning a verdict. -/
theorem zero_s_no_verdict :
    isValid (Signature.new 1 0) (List.replicate 32 0) ⟨G⟩ = none := by decide

/-- C8 (amended): `Signature::new` performs no range validation —
construction succeeds structurally for every pair, including `r = 0` or
`s = 0` — and verification performs no early rejection either: a
signature with `r = 0` is still processed to a boolean verdict, while
one with `s = 0` reaches the point at infinity and panics at
`total.x().unwrap()` without producing a verdict. -/
theorem signature_new_no_validation :
    (∀ r s : Nat, Signature.new r s = ⟨r, s⟩)
    ∧ isValid (Signature.new 0 1) (List.replicate 31 0 ++ [1]) ⟨G⟩ = some (.ok false)
    ∧ isValid (Signature.new 1 0) (List.replicate 32 0) ⟨G⟩ = none := by
  refine ⟨fun r s => rfl, by decide, by decide⟩

/-- C10: every 33-byte input whose first byte is not `0x04` takes the
compressed SEC path and always deserializes to `Ok`: the y-parity is
decoded as even exactly when the first byte is `0x02` (any other leading
byte counts as odd), and the point is built without re-checking the
curve equation (no `PointNotOnTheCurve` error is possible). -/
theorem sec_deserialize_compressed (bytes : List Nat)
    (h33 : bytes.length = 33) (hb : bytes.headD 0 ≠ 0x04) :
    ∃ y : FieldElement,
      secDeserialize bytes =
        some (.ok (.normal (FieldElement.new (fromBytesBe (bytes.drop 1))) y))
      ∧ y = (let x := FieldElement.new (fromBytesBe (bytes.drop 1))
             let beta := sqrt (fadd (x.pow 3) Bconst)
             if decide (beta.number % 2 = 0) = decide (bytes.headD 0 = 0x02)
             then beta else FieldElement.new (PRIME - beta.number)) := by
  refine ⟨_, ?_, rfl⟩
  unfold secDeserialize
  rw [h33, if_neg (by norm_num), if_neg hb]

/-- C10 witness: a concrete 33-byte input with leading byte `0x05` and
`x = 0` (not on the curve) still deserializes to `Ok`. -/
theorem sec_deserialize_compressed_witness :
    ∃ y : FieldElement,
      secDeserialize (0x05 :: List.replicate 32 0) =
        some (.ok (.normal (FieldElement.new
          (fromBytesBe ((0x05 :: List.replicate 32 0).drop 1))) y))
      ∧ y = (let x := FieldElement.new (fromBytesBe ((0x05 :: List.replicate 32 0).drop 1))
             let beta := sqrt (fadd (x.pow 3) Bconst)
             if decide (beta.number % 2 = 0) = decide ((0x05 :: List.replicate 32 0).headD 0 = 0x02)
             then beta else FieldElement.new (PRIME - beta.number)) :=
  sec_deserialize_compressed (0x05 :: List.replicate 32 0) (by decide) (by decide)

/-- C5 counterexample: with the signature `(r, s) = (0, 0)`, a 32-byte
digest and public key `G`, `is_valid` neither errors nor returns a
boolean verdict: `u = v = 0` makes `u·G + v·Q` the point at infinity and
`total.x().unwrap()` panics (modelled by `none`), so "returns true iff
`(u·G + v·Q).x == r`" fails at this input. -/
theorem is_valid_zero_sig_panics :
    isValid (Signature.new 0 0) (List.replicate 32 0) ⟨G⟩ = none := by decide

/-- C5 (amended): verification returns the invalid-digest-length error
iff the digest is not 32 bytes long; with a 32-byte digest, whenever
`u·G + v·Q` is a normal point the boolean verdict compares its
x-coordinate with `r` (`s⁻¹ = s^(N-2) mod N`, `u = z·s⁻¹ mod N`,
`v = r·s⁻¹ mod N`), and whenever it is the point at infinity the
`total.x().unwrap()` panics, so no verdict is returned. -/
theorem is_valid_characterization (sig : Signature) (digest : List Nat) (pk : PublicKey) :
    (isValid sig digest pk = some (.error (.invalidDigestLength digest.length))
      ↔ digest.length ≠ 32)
    ∧ (∀ x y : FieldElement, digest.length = 32 →
        padd (pmul G (fromBytesBe digest * modPow sig.s (N - 2) N % N))
          (pmul pk.ec_point (sig.r * modPow sig.s (N - 2) N % N)) = .normal x y →
        isValid sig digest pk = some (.ok (decide (x.number = sig.r))))
    ∧ (digest.length = 32 →
        padd (pmul G (fromBytesBe digest * modPow sig.s (N - 2) N % N))
          (pmul pk.ec_point (sig.r * modPow sig.s (N - 2) N % N)) = .atInfinity →
        isValid sig digest pk = none) := by
  by_cases h : digest.length = 32
  · refine ⟨?_, fun x y _ hx => ?_, fun _ hx => ?_⟩
    · simp only [isValid]
      rw [if_neg (by simp [h])]
      constructor
      · intro hEq
        exfalso
        cases hTot : padd (pmul G (fromBytesBe digest * modPow sig.s (N - 2) N % N))
            (pmul pk.ec_point (sig.r * modPow sig.s (N - 2) N % N)) <;>
          simp [hTot] at hEq
      · intro h32; exact absurd h h32
    · simp only [isValid]
      rw [if_neg (by simp [h]), hx]
    · simp only [isValid]
      rw [if_neg (by simp [h]), hx]
  · refine ⟨?_, fun x y h32 _ => absurd h32 h, fun h32 _ => absurd h32 h⟩
    simp only [isValid]
    rw [if_pos (by simpa using h)]
    simpa using h

/-- C5 witness: the characterization applied to the signature `(1, 1)`,
a 32-byte zero digest, and the public key `G`: here `u = 0`, `v = 1`,
the total is `G` itself, and the verdict is `false`. -/
theorem is_valid_characterization_witness :
    isValid (Signature.new 1 1) (List.replicate 32 0) ⟨G⟩ = some (.ok false) := by
  have h := (is_valid_characterization (Signature.new 1 1) (List.replicate 32 0) ⟨G⟩).2.1
    (FieldElement.new GX) (FieldElement.new GY) (by decide) (by decide)
  rw [h]
  decide

/-- C4 counterexample: the claim quantifies over every private key, but
for a secret of 33 big-endian bytes (`secret = 2^256`) the
`prepend_padding` of the secret inside `deterministic_k` fails and
`create_signature` returns `Err(OverflowPadding)` — no `(r, s)` pair at
all. -/
theorem create_signature_overflow :
    createSignatureWithK (2 ^ 256) (List.replicate 32 0) 1
      = some (.error .overflowPadding) := by decide

/-- C4 (amended): for every private key with secret `d < 2^256` and a
nonce `k` whose multiple `k·G` is a normal point (as the nonce returned
by `deterministic_k` always is), `create_signature` returns `r` =
x-coordinate of `k·G` together with `s = (z' + r·secret)·k⁻¹ mod N`,
where `z'` is the digest read as a big-endian integer reduced by one
conditional subtraction of `N`, and the returned `s` is at most `N / 2`
(an `s` above `N / 2` is replaced by `N - s`).  For `d ≥ 2^256` the
padding of the secret fails instead (see the counterexample). -/
theorem create_signature_spec (secret : Nat) (digest : List Nat) (k : Nat)
    (px py : FieldElement) (z z' s0 : Nat)
    (hsec : secret < 2 ^ 256)
    (hd : digest.length = 32)
    (hk : pmul G k = .normal px py)
    (hz : z = fromBytesBe digest)
    (hz' : z' = if N ≤ z then z - N else z)
    (hs0 : s0 = (z' + px.number * secret) * modPow k (N - 2) N % N) :
    createSignatureWithK secret digest k =
      some (.ok ⟨px.number, if N / 2 < s0 then N - s0 else s0⟩)
    ∧ (if N / 2 < s0 then N - s0 else s0) ≤ N / 2 := by
  have hNpos : 0 < N := by decide
  have hNodd : N % 2 = 1 := by decide
  have hs0N : s0 < N := by rw [hs0]; exact Nat.mod_lt _ hNpos
  have hsEq : (z + px.number * secret) * modPow k (N - 2) N % N = s0 := by
    rw [hs0, hz']
    by_cases hzN : N ≤ z
    · rw [if_pos hzN]
      conv_lhs => rw [show z = z - N + N from (Nat.sub_add_cancel hzN).symm]
      rw [show (z - N + N + px.number * secret) * modPow k (N - 2) N
            = (z - N + px.number * secret) * modPow k (N - 2) N
              + N * modPow k (N - 2) N by ring]
      exact Nat.add_mul_mod_self_left _ _ _
    · rw [if_neg hzN]
  have hsec256 : secret < 256 ^ 32 := by
    have h : (256 : ℕ) ^ 32 = 2 ^ 256 := by norm_num
    omega
  obtain ⟨sB, hpad, _, _⟩ := pad32_spec secret hsec256
  constructor
  · unfold createSignatureWithK
    rw [hpad, hk]
    dsimp only
    rw [← hz, hsEq]
  · split
    · omega
    · omega

/-- C4 witness: secret `1`, the 32-byte zero digest, and nonce `k = 1`:
here `k·G = G`, `z = 0`, `s₀ = GX`, which is below `N / 2`. -/
theorem create_signature_spec_witness :
    createSignatureWithK 1 (List.replicate 32 0) 1 =
      some (.ok ⟨(FieldElement.new GX).number,
        if N / 2 < GX then N - GX else GX⟩)
    ∧ (if N / 2 < GX then N - GX else GX) ≤ N / 2 :=
  create_signature_spec 1 (List.replicate 32 0) 1
    (FieldElement.new GX) (FieldElement.new GY) 0 0 GX
    (by decide) (by decide) (by decide) (by decide) (by decide) (by decide)


/-! ### Primality of `PRIME` via Lucas certificates -/

theorem zmod_pow_eq_one {p a e : Nat} (he : e < 2 ^ 320) (h : modPow a e p = 1) :
    ((a : ZMod p)) ^ e = 1 := by
  have h1 : ((modPow a e p : ℕ) : ZMod p) = ((1 : ℕ) : ZMod p) := by rw [h]
  rwa [modPow_correct a e p he, ZMod.natCast_mod, Nat.cast_pow, Nat.cast_one] at h1

theorem zmod_pow_ne_one {p a e : Nat} (hp : 1 < p) (he : e < 2 ^ 320)
    (h : modPow a e p ≠ 1) : ((a : ZMod p)) ^ e ≠ 1 := by
  intro hpow
  apply h
  have h1 : ((modPow a e p : ℕ) : ZMod p) = ((1 : ℕ) : ZMod p) := by
    rw [modPow_correct a e p he, ZMod.natCast_mod, Nat.cast_pow, hpow, Nat.cast_one]
  have hlt : modPow a e p < p := modPowGo_lt _ _ _ _ (by omega)
  have h2 := congrArg ZMod.val h1
  rwa [ZMod.val_cast_of_lt hlt, ZMod.val_cast_of_lt hp] at h2

theorem prime_eq_of_dvd_prod_pow {q : Nat} (hq : q.Prime) :
    ∀ l : List (Nat × Nat), (∀ pe ∈ l, Nat.Prime pe.1) →
      q ∣ (l.map fun pe => pe.1 ^ pe.2).prod → ∃ pe ∈ l, q = pe.1 := by
  intro l
  induction l with
  | nil =>
    intro _ h
    simp only [List.map_nil, List.prod_nil, Nat.dvd_one] at h
    exact absurd h hq.ne_one
  | cons pe l ih =>
    intro hall hdvd
    simp only [List.map_cons, List.prod_cons] at hdvd
    rcases (Nat.Prime.dvd_mul hq).mp hdvd with h | h
    · have hqp := hq.dvd_of_dvd_pow h
      have heq := (Nat.prime_dvd_prime_iff_eq hq (hall pe (List.mem_cons_self _ _))).mp hqp
      exact ⟨pe, List.mem_cons_self _ _, heq⟩
    · obtain ⟨pe2, hmem, heq⟩ := ih (fun x hx => hall x (List.mem_cons_of_mem _ hx)) h
      exact ⟨pe2, List.mem_cons_of_mem _ hmem, heq⟩


theorem prime_cert_107590001 : Nat.Prime 107590001 := by
  have hall : ∀ pe ∈ [(2, 4), (5, 4), (7, 1), (29, 1), (53, 1)], Nat.Prime pe.1 := by
    intro pe hmem; fin_cases hmem <;> first
      | norm_num

  have hfac : (107590001 : Nat) - 1
      = (([(2, 4), (5, 4), (7, 1), (29, 1), (53, 1)] : List (Nat × Nat)).map fun pe => pe.1 ^ pe.2).prod := by decide
  refine lucas_primality 107590001 ((3 : ℕ) : ZMod 107590001)
    (zmod_pow_eq_one (by norm_num) (by decide)) ?_
  intro q hq hdvd
  rw [hfac] at hdvd
  obtain ⟨pe, hmem, hqe⟩ := prime_eq_of_dvd_prod_pow hq _ hall hdvd
  fin_cases hmem <;> rw [hqe] <;>
    exact zmod_pow_ne_one (by norm_num) (by decide) (by decide)


theorem prime_cert_173378833005251801 : Nat.Prime 173378833005251801 := by
  have hall : ∀ pe ∈ [(2, 3), (5, 2), (2621, 1), (24809, 1), (13331831, 1)], Nat.Prime pe.1 := by
    intro pe hmem; fin_cases hmem <;> first
      | norm_num

  have hfac : (173378833005251801 : Nat) - 1
      = (([(2, 3), (5, 2), (2621, 1), (24809, 1), (13331831, 1)] : List (Nat × Nat)).map fun pe => pe.1 ^ pe.2).prod := by decide
  refine lucas_primality 173378833005251801 ((6 : ℕ) : ZMod 173378833005251801)
    (zmod_pow_eq_one (by norm_num) (by decide)) ?_
  intro q hq hdvd
  rw [hfac] at hdvd
  obtain ⟨pe, hmem, hqe⟩ := prime_eq_of_dvd_prod_pow hq _ hall hdvd
  fin_cases hmem <;> rw [hqe] <;>
    exact zmod_pow_ne_one (by norm_num) (by decide) (by decide)


theorem prime_cert_22149492674086928081353 : Nat.Prime 22149492674086928081353 := by
  have hall : ∀ pe ∈ [(2, 3), (3, 1), (5323, 1), (173378833005251801, 1)], Nat.Prime pe.1 := by
    intro pe hmem; fin_cases hmem <;> first
      | exact prime_cert_173378833005251801
      | norm_num

  have hfac : (22149492674086928081353 : Nat) - 1
      = (([(2, 3), (3, 1), (5323, 1), (173378833005251801, 1)] : List (Nat × Nat)).map fun pe => pe.1 ^ pe.2).prod := by decide
  refine lucas_primality 22149492674086928081353 ((5 : ℕ) : ZMod 22149492674086928081353)
    (zmod_pow_eq_one (by norm_num) (by decide)) ?_
  intro q hq hdvd
  rw [hfac] at hdvd
  obtain ⟨pe, hmem, hqe⟩ := prime_eq_of_dvd_prod_pow hq _ hall hdvd
  fin_cases hmem <;> rw [hqe] <;>
    exact zmod_pow_ne_one (by norm_num) (by decide) (by decide)


theorem prime_cert_132896956044521568488119 : Nat.Prime 132896956044521568488119 := by
  have hall : ∀ pe ∈ [(2, 1), (3, 1), (22149492674086928081353, 1)], Nat.Prime pe.1 := by
    intro pe hmem; fin_cases hmem <;> first
      | exact prime_cert_22149492674086928081353
      | norm_num

  have hfac : (132896956044521568488119 : Nat) - 1
      = (([(2, 1), (3, 1), (22149492674086928081353, 1)] : List (Nat × Nat)).map fun pe => pe.1 ^ pe.2).prod := by decide
  refine lucas_primality 132896956044521568488119 ((6 : ℕ) : ZMod 132896956044521568488119)
    (zmod_pow_eq_one (by norm_num) (by decide)) ?_
  intro q hq hdvd
  rw [hfac] at hdvd
  obtain ⟨pe, hmem, hqe⟩ := prime_eq_of_dvd_prod_pow hq _ hall hdvd
  fin_cases hmem <;> rw [hqe] <;>
    exact zmod_pow_ne_one (by norm_num) (by decide) (by decide)


theorem prime_cert_255515944373312847190720520512484175977 : Nat.Prime 255515944373312847190720520512484175977 := by
  have hall : ∀ pe ∈ [(2, 3), (7, 2), (11, 1), (1627, 1), (2657, 1), (4423, 1), (41201, 1), (96557, 1), (7240687, 1), (107590001, 1)], Nat.Prime pe.1 := by
    intro pe hmem; fin_cases hmem <;> first
      | exact prime_cert_107590001
      | norm_num

  have hfac : (255515944373312847190720520512484175977 : Nat) - 1
      = (([(2, 3), (7, 2), (11, 1), (1627, 1), (2657, 1), (4423, 1), (41201, 1), (96557, 1), (7240687, 1), (107590001, 1)] : List (Nat × Nat)).map fun pe => pe.1 ^ pe.2).prod := by decide
  refine lucas_primality 255515944373312847190720520512484175977 ((3 : ℕ) : ZMod 255515944373312847190720520512484175977)
    (zmod_pow_eq_one (by norm_num) (by decide)) ?_
  intro q hq hdvd
  rw [hfac] at hdvd
  obtain ⟨pe, hmem, hqe⟩ := prime_eq_of_dvd_prod_pow hq _ hall hdvd
  fin_cases hmem <;> rw [hqe] <;>
    exact zmod_pow_ne_one (by norm_num) (by decide) (by decide)


theorem prime_cert_205115282021455665897114700593932402728804164701536103180137503955397371 : Nat.Prime 205115282021455665897114700593932402728804164701536103180137503955397371 := by
  have hall : ∀ pe ∈ [(2, 1), (3, 1), (5, 1), (29, 2), (31, 1), (7723, 1), (132896956044521568488119, 1), (255515944373312847190720520512484175977, 1)], Nat.Prime pe.1 := by
    intro pe hmem; fin_cases hmem <;> first
      | exact prime_cert_132896956044521568488119
      | exact prime_cert_255515944373312847190720520512484175977
      | norm_num

  have hfac : (205115282021455665897114700593932402728804164701536103180137503955397371 : Nat) - 1
      = (([(2, 1), (3, 1), (5, 1), (29, 2), (31, 1), (7723, 1), (132896956044521568488119, 1), (255515944373312847190720520512484175977, 1)] : List (Nat × Nat)).map fun pe => pe.1 ^ pe.2).prod := by decide
  refine lucas_primality 205115282021455665897114700593932402728804164701536103180137503955397371 ((10 : ℕ) : ZMod 205115282021455665897114700593932402728804164701536103180137503955397371)
    (zmod_pow_eq_one (by norm_num) (by decide)) ?_
  intro q hq hdvd
  rw [hfac] at hdvd
  obtain ⟨pe, hmem, hqe⟩ := prime_eq_of_dvd_prod_pow hq _ hall hdvd
  fin_cases hmem <;> rw [hqe] <;>
    exact zmod_pow_ne_one (by norm_num) (by decide) (by decide)


theorem prime_cert_115792089237316195423570985008687907853269984665640564039457584007908834671663 : Nat.Prime 115792089237316195423570985008687907853269984665640564039457584007908834671663 := by
  have hall : ∀ pe ∈ [(2, 1), (3, 1), (7, 1), (13441, 1), (205115282021455665897114700593932402728804164701536103180137503955397371, 1)], Nat.Prime pe.1 := by
    intro pe hmem; fin_cases hmem <;> first
      | exact prime_cert_205115282021455665897114700593932402728804164701536103180137503955397371
      | norm_num

  have hfac : (115792089237316195423570985008687907853269984665640564039457584007908834671663 : Nat) - 1
      = (([(2, 1), (3, 1), (7, 1), (13441, 1), (205115282021455665897114700593932402728804164701536103180137503955397371, 1)] : List (Nat × Nat)).map fun pe => pe.1 ^ pe.2).prod := by decide
  refine lucas_primality 115792089237316195423570985008687907853269984665640564039457584007908834671663 ((3 : ℕ) : ZMod 115792089237316195423570985008687907853269984665640564039457584007908834671663)
    (zmod_pow_eq_one (by norm_num) (by decide)) ?_
  intro q hq hdvd
  rw [hfac] at hdvd
  obtain ⟨pe, hmem, hqe⟩ := prime_eq_of_dvd_prod_pow hq _ hall hdvd
  fin_cases hmem <;> rw [hqe] <;>
    exact zmod_pow_ne_one (by norm_num) (by decide) (by decide)


theorem prime_PRIME : Nat.Prime PRIME := prime_cert_115792089237316195423570985008687907853269984665640564039457584007908834671663

@[instance] theorem fact_prime_PRIME : Fact (Nat.Prime PRIME) := ⟨prime_PRIME⟩

theorem toZ_zero_iff {a : FieldElement} (ha : Reduced a) :
    toZ a = 0 ↔ a.number = 0 := by
  constructor
  · intro h
    have := congrArg ZMod.val h
    rwa [toZ, ZMod.val_cast_of_lt ha, ZMod.val_zero] at this
  · intro h
    rw [toZ, h, Nat.cast_zero]

theorem toZ_pow_two (a : FieldElement) : toZ (a.pow 2) = toZ a ^ 2 := by
  rw [show (2 : Int) = Int.ofNat 2 from rfl, toZ_pow_nat a 2 (by norm_num)]

theorem toZ_pow_three (a : FieldElement) : toZ (a.pow 3) = toZ a ^ 3 := by
  rw [show (3 : Int) = Int.ofNat 3 from rfl, toZ_pow_nat a 3 (by norm_num)]

theorem PRIME_sub_two_small : PRIME - 2 < 2 ^ 320 := by
  have : PRIME < 2 ^ 320 := by norm_num [PRIME]
  omega

theorem toZ_mul_inv (a : FieldElement) (ha : toZ a ≠ 0) :
    toZ a.mul_inv = (toZ a)⁻¹ := by
  rw [FieldElement.mul_inv, toZ_pow_nat a _ PRIME_sub_two_small]
  have hcard : toZ a ^ (PRIME - 1) = 1 := ZMod.pow_card_sub_one_eq_one ha
  have h2 : 2 ≤ PRIME := by norm_num [PRIME]
  have hmul : toZ a ^ (PRIME - 2) * toZ a = 1 := by
    rw [← pow_succ, show PRIME - 2 + 1 = PRIME - 1 by omega, hcard]
  exact eq_inv_of_mul_eq_one_left hmul

theorem toZ_fdiv (a b : FieldElement) (hb : toZ b ≠ 0) :
    toZ (fdiv a b) = toZ a / toZ b := by
  show toZ (fmul a b.mul_inv) = _
  rw [toZ_fmul, toZ_mul_inv b hb, div_eq_mul_inv]

theorem toZ_curve_rhs (x : FieldElement) :
    toZ (fadd (fadd (x.pow 3) (fmul ECURVE.a x)) ECURVE.b) = toZ x ^ 3 + 7 := by
  rw [toZ_fadd, toZ_fadd, toZ_fmul, toZ_pow_three]
  have ha : toZ ECURVE.a = 0 := by
    show toZ (FieldElement.new 0) = 0
    rw [toZ_new, Nat.cast_zero]
  have hb : toZ ECURVE.b = 7 := by
    show toZ (FieldElement.new 7) = 7
    rw [toZ_new]
    norm_num
  rw [ha, hb]
  ring

theorem contains_iff (x y : FieldElement) :
    contains ECURVE x y = true ↔ OnCurve x y := by
  unfold contains OnCurve
  rw [decide_eq_true_eq]
  constructor
  · intro h
    have := congrArg toZ h
    rwa [toZ_pow_two, toZ_curve_rhs] at this
  · intro h
    refine toZ_inj (pow_reduced _ _) (fadd_reduced _ _) ?_
    rw [toZ_pow_two, toZ_curve_rhs]
    exact h

theorem onCurve_iff_equation (x y : FieldElement) :
    OnCurve x y ↔ Wcurve.Equation (toZ x) (toZ y) := by
  unfold OnCurve
  rw [WeierstrassCurve.Affine.equation_iff]
  show _ ↔ toZ y ^ 2 + 0 * toZ x * toZ y + 0 * toZ y
    = toZ x ^ 3 + 0 * toZ x ^ 2 + 0 * toZ x + 7
  constructor <;> intro h <;> linear_combination h

theorem two_ne_zero_zmodp : (2 : ZMod PRIME) ≠ 0 := by
  have h : ((2 : ℕ) : ZMod PRIME) ≠ 0 := by
    rw [Ne, ZMod.natCast_zmod_eq_zero_iff_dvd]
    intro hdvd
    have := Nat.le_of_dvd (by norm_num) hdvd
    norm_num [PRIME] at this
  simpa using h

theorem toZ_ecurve_a : toZ ECURVE.a = 0 := by
  show toZ (FieldElement.new 0) = 0
  rw [toZ_new, Nat.cast_zero]

/-- The heart of the development: the source's point addition preserves
the reduced-on-curve invariant, via Mathlib's Weierstrass group law. -/
theorem padd_good (p q : Point) (hp : GoodPoint p) (hq : GoodPoint q) :
    GoodPoint (padd p q) := by
  cases p with
  | atInfinity => cases q <;> exact hq
  | normal x1 y1 =>
    cases q with
    | atInfinity => exact hp
    | normal x2 y2 =>
      obtain ⟨hx1, hy1, hc1⟩ := hp
      obtain ⟨hx2, hy2, hc2⟩ := hq
      have hE1 : Wcurve.Equation (toZ x1) (toZ y1) := (onCurve_iff_equation _ _).mp hc1
      have hE2 : Wcurve.Equation (toZ x2) (toZ y2) := (onCurve_iff_equation _ _).mp hc2
      simp only [padd]
      by_cases hxx : x1 = x2
      · rw [if_pos hxx]
        by_cases hyy : y1 = y2
        · rw [if_pos hyy]
          by_cases hy0 : y1.number = 0
          · rw [if_pos hy0]; trivial
          · rw [if_neg hy0]
            subst hxx; subst hyy
            have hYne : toZ y1 ≠ 0 := fun h => hy0 ((toZ_zero_iff hy1).mp h)
            have hnegY : Wcurve.negY (toZ x1) (toZ y1) = - toZ y1 := by
              simp [Wcurve, WeierstrassCurve.Affine.negY]
            have hyne : toZ y1 ≠ Wcurve.negY (toZ x1) (toZ y1) := by
              rw [hnegY]
              intro h
              apply hYne
              have h2Y : (2 : ZMod PRIME) * toZ y1 = 0 := by linear_combination h
              rcases mul_eq_zero.mp h2Y with h' | h'
              · exact absurd h' two_ne_zero_zmodp
              · exact h'
            have hden : toZ (smul y1 2) ≠ 0 := by
              rw [toZ_smul]
              intro h
              rcases mul_eq_zero.mp h with h' | h'
              · exact hYne h'
              · exact two_ne_zero_zmodp (by exact_mod_cast h')
            have hLcode : toZ (fdiv (fadd (smul (x1.pow 2) 3) ECURVE.a) (smul y1 2))
                = Wcurve.slope (toZ x1) (toZ x1) (toZ y1) (toZ y1) := by
              rw [WeierstrassCurve.Affine.slope_of_Y_ne rfl hyne,
                toZ_fdiv _ _ hden, toZ_fadd, toZ_smul, toZ_smul, toZ_pow_two, toZ_ecurve_a]
              simp only [Wcurve, WeierstrassCurve.Affine.negY]
              push_cast
              congr 1 <;> ring
            refine ⟨fsub_reduced _ _, fsub_reduced _ _, ?_⟩
            rw [onCurve_iff_equation]
            have hx3Z : toZ (fsub ((fdiv (fadd (smul (x1.pow 2) 3) ECURVE.a)
                  (smul y1 2)).pow 2) (smul x1 2))
                = Wcurve.addX (toZ x1) (toZ x1)
                    (Wcurve.slope (toZ x1) (toZ x1) (toZ y1) (toZ y1)) := by
              rw [toZ_fsub _ _ (smul_reduced _ _), toZ_pow_two, hLcode, toZ_smul]
              simp only [WeierstrassCurve.Affine.addX, Wcurve]
              push_cast
              ring
            have hy3Z : toZ (fsub (fmul (fdiv (fadd (smul (x1.pow 2) 3) ECURVE.a) (smul y1 2))
                  (fsub x1 (fsub ((fdiv (fadd (smul (x1.pow 2) 3) ECURVE.a)
                    (smul y1 2)).pow 2) (smul x1 2)))) y1)
                = Wcurve.addY (toZ x1) (toZ x1) (toZ y1)
                    (Wcurve.slope (toZ x1) (toZ x1) (toZ y1) (toZ y1)) := by
              rw [toZ_fsub _ _ hy1, toZ_fmul, hLcode,
                toZ_fsub _ _ (fsub_reduced _ _), hx3Z]
              simp only [WeierstrassCurve.Affine.addY, WeierstrassCurve.Affine.negAddY,
                WeierstrassCurve.Affine.negY, WeierstrassCurve.Affine.addX, Wcurve]
              ring
            rw [hx3Z, hy3Z]
            exact WeierstrassCurve.Affine.equation_add hE1 hE1 (fun _ => hyne)
        · rw [if_neg hyy]; trivial
      · rw [if_neg hxx]
        have hxZ : toZ x1 ≠ toZ x2 := fun h => hxx (toZ_inj hx1 hx2 h)
        have hdenZ : toZ (fsub x2 x1) ≠ 0 := by
          rw [toZ_fsub _ _ hx1]
          exact sub_ne_zero_of_ne (Ne.symm hxZ)
        have hLcode : toZ (fdiv (fsub y2 y1) (fsub x2 x1))
            = Wcurve.slope (toZ x1) (toZ x2) (toZ y1) (toZ y2) := by
          rw [WeierstrassCurve.Affine.slope_of_X_ne hxZ,
            toZ_fdiv _ _ hdenZ, toZ_fsub _ _ hy1, toZ_fsub _ _ hx1]
          rw [show toZ y1 - toZ y2 = -(toZ y2 - toZ y1) by ring,
            show toZ x1 - toZ x2 = -(toZ x2 - toZ x1) by ring, neg_div_neg_eq]
        refine ⟨fsub_reduced _ _, fsub_reduced _ _, ?_⟩
        rw [onCurve_iff_equation]
        have hx3Z : toZ (fsub (fsub ((fdiv (fsub y2 y1) (fsub x2 x1)).pow 2) x1) x2)
            = Wcurve.addX (toZ x1) (toZ x2)
                (Wcurve.slope (toZ x1) (toZ x2) (toZ y1) (toZ y2)) := by
          rw [toZ_fsub _ _ hx2, toZ_fsub _ _ hx1, toZ_pow_two, hLcode]
          simp only [WeierstrassCurve.Affine.addX, Wcurve]
          ring
        have hy3Z : toZ (fsub (fmul (fdiv (fsub y2 y1) (fsub x2 x1))
              (fsub x1 (fsub (fsub ((fdiv (fsub y2 y1) (fsub x2 x1)).pow 2) x1) x2))) y1)
            = Wcurve.addY (toZ x1) (toZ x2) (toZ y1)
                (Wcurve.slope (toZ x1) (toZ x2) (toZ y1) (toZ y2)) := by
          rw [toZ_fsub _ _ hy1, toZ_fmul, hLcode,
            toZ_fsub _ _ (fsub_reduced _ _), hx3Z]
          simp only [WeierstrassCurve.Affine.addY, WeierstrassCurve.Affine.negAddY,
            WeierstrassCurve.Affine.negY, WeierstrassCurve.Affine.addX, Wcurve]
          ring
        rw [hx3Z, hy3Z]
        exact WeierstrassCurve.Affine.equation_add hE1 hE2 (fun h => absurd h hxZ)

theorem mulGo_good (fuel : Nat) :
    ∀ (coef : Nat) (result current : Point),
      GoodPoint result → GoodPoint current → GoodPoint (mulGo fuel coef result current) := by
  induction fuel with
  | zero => intro coef result current hr _; exact hr
  | succ fuel ih =>
    intro coef result current hr hc
    simp only [mulGo]
    split
    · exact hr
    · refine ih _ _ _ ?_ (padd_good _ _ hc hc)
      split
      · exact padd_good _ _ hr hc
      · exact hr

theorem pmul_good (p : Point) (k : Nat) (hp : GoodPoint p) :
    GoodPoint (pmul p k) :=
  mulGo_good 257 _ _ _ trivial hp

theorem G_good : GoodPoint G := by
  refine ⟨new_reduced _, new_reduced _, ?_⟩
  exact (contains_iff _ _).mp (by decide)

/-- C9: Fermat inverse: for every nonzero reduced field element `a`,
`mul(a, mul_inv(a)) = 1`, where `mul_inv(a) = a^(PRIME-2) mod PRIME`. -/
theorem fermat_mul_inv (a : FieldElement) (ha : Reduced a) (hnz : a.number ≠ 0) :
    fmul a a.mul_inv = FieldElement.one := by
  have haz : toZ a ≠ 0 := fun h => hnz ((toZ_zero_iff ha).mp h)
  refine toZ_inj (fmul_reduced _ _) (by norm_num [Reduced, FieldElement.one, PRIME]) ?_
  rw [toZ_fmul, toZ_mul_inv a haz, mul_inv_cancel₀ haz]
  show _ = ((1 : ℕ) : ZMod PRIME)
  rw [Nat.cast_one]

/-- C9 witness at `a = 3`. -/
theorem fermat_mul_inv_witness :
    fmul ⟨3⟩ (FieldElement.mul_inv ⟨3⟩) = FieldElement.one :=
  fermat_mul_inv ⟨3⟩ (by norm_num [Reduced, PRIME]) (by norm_num)

@[instance] theorem fact_one_lt_PRIME : Fact (1 < PRIME) := ⟨by norm_num [PRIME]⟩

theorem toZ_sqrt (a : FieldElement) : toZ a.sqrt = toZ a ^ ((PRIME + 1) / 4) := by
  rw [FieldElement.sqrt]
  refine toZ_pow_nat a _ ?_
  have h1 : (PRIME + 1) / 4 ≤ PRIME + 1 := Nat.div_le_self _ _
  have h2 : PRIME + 1 < 2 ^ 320 := by norm_num [PRIME]
  omega

theorem toZ_Bconst : toZ Bconst = 7 := by
  show toZ (FieldElement.new 7) = 7
  rw [toZ_new]
  norm_num

theorem sqrt_of_square {yz : ZMod PRIME} (hy : yz ≠ 0) :
    (yz ^ 2) ^ ((PRIME + 1) / 4) = yz ∨ (yz ^ 2) ^ ((PRIME + 1) / 4) = -yz := by
  have h4 : 2 * ((PRIME + 1) / 4 * 2) = PRIME + 1 := by norm_num [PRIME]
  have hb2 : ((yz ^ 2) ^ ((PRIME + 1) / 4)) ^ 2 = yz ^ 2 := by
    rw [← pow_mul, ← pow_mul, h4,
      show PRIME + 1 = (PRIME - 1) + 2 by norm_num [PRIME], pow_add,
      ZMod.pow_card_sub_one_eq_one hy, one_mul]
  have hfac : ((yz ^ 2) ^ ((PRIME + 1) / 4) - yz)
      * ((yz ^ 2) ^ ((PRIME + 1) / 4) + yz) = 0 := by linear_combination hb2
  rcases mul_eq_zero.mp hfac with h | h
  · exact Or.inl (sub_eq_zero.mp h)
  · exact Or.inr (eq_neg_of_add_eq_zero_left h)

theorem neg7_pow_third_ne_one :
    modPow (PRIME - 7) ((PRIME - 1) / 3) PRIME ≠ 1 := by decide

/-- secp256k1 has no point with `y = 0`: `-7` is not a cube mod `PRIME`. -/
theorem on_curve_y_ne_zero {x y : FieldElement} (hc : OnCurve x y) :
    y.number ≠ 0 := by
  intro h0
  have hyz : toZ y = 0 := by rw [toZ, h0, Nat.cast_zero]
  unfold OnCurve at hc
  rw [hyz] at hc
  have hx3 : toZ x ^ 3 = -7 := by linear_combination -hc
  have h7 : ((7 : ℕ) : ZMod PRIME) ≠ 0 := by
    rw [Ne, ZMod.natCast_zmod_eq_zero_iff_dvd]
    intro hdvd
    have := Nat.le_of_dvd (by norm_num) hdvd
    norm_num [PRIME] at this
  have hxne : toZ x ≠ 0 := by
    intro h
    rw [h] at hx3
    apply h7
    have h70 : (7 : ZMod PRIME) = 0 := by linear_combination hx3
    rw [show ((7 : ℕ) : ZMod PRIME) = (7 : ZMod PRIME) by norm_num, h70]
  have h3 : 3 * ((PRIME - 1) / 3) = PRIME - 1 := by norm_num [PRIME]
  have hone : ((-7 : ZMod PRIME)) ^ ((PRIME - 1) / 3) = 1 := by
    rw [← hx3, ← pow_mul, h3]
    exact ZMod.pow_card_sub_one_eq_one hxne
  have hcast : ((PRIME - 7 : ℕ) : ZMod PRIME) = -7 := by
    rw [Nat.cast_sub (by norm_num [PRIME]), ZMod.natCast_self, zero_sub]
    norm_num
  have hsmall : (PRIME - 1) / 3 < 2 ^ 320 := by
    have h1 : (PRIME - 1) / 3 ≤ PRIME - 1 := Nat.div_le_self _ _
    have h2 : PRIME - 1 < 2 ^ 320 := by norm_num [PRIME]
    omega
  have hmp : ((modPow (PRIME - 7) ((PRIME - 1) / 3) PRIME : ℕ) : ZMod PRIME) = 1 := by
    rw [modPow_correct _ _ _ hsmall, ZMod.natCast_mod, Nat.cast_pow, hcast, hone]
  have hlt : modPow (PRIME - 7) ((PRIME - 1) / 3) PRIME < PRIME :=
    modPowGo_lt _ _ _ _ PRIME_pos
  have hval := congrArg ZMod.val hmp
  rw [ZMod.val_cast_of_lt hlt, ZMod.val_one] at hval
  exact neg7_pow_third_ne_one hval

theorem secSerialize_uncompressed (x y : FieldElement) (hx : Reduced x) (hy : Reduced y) :
    ∃ xB yB : List Nat,
      secSerialize (.normal x y) false = .ok (0x04 :: (xB ++ yB))
      ∧ xB.length = 32 ∧ yB.length = 32
      ∧ fromBytesBe xB = x.number ∧ fromBytesBe yB = y.number := by
  have hx256 : x.number < 256 ^ 32 := lt_of_lt_of_le hx (by norm_num [PRIME])
  have hy256 : y.number < 256 ^ 32 := lt_of_lt_of_le hy (by norm_num [PRIME])
  obtain ⟨xB, hpx, hlx, hfx⟩ := pad32_spec x.number hx256
  obtain ⟨yB, hpy, hly, hfy⟩ := pad32_spec y.number hy256
  refine ⟨xB, yB, ?_, hlx, hly, hfx, hfy⟩
  unfold secSerialize
  dsimp only
  rw [hpx, hpy]
  rfl

theorem secSerialize_compressed (x y : FieldElement) (hx : Reduced x) :
    ∃ xB : List Nat,
      secSerialize (.normal x y) true
        = .ok ((if y.number % 2 = 0 then 0x02 else 0x03) :: xB)
      ∧ xB.length = 32 ∧ fromBytesBe xB = x.number := by
  have hx256 : x.number < 256 ^ 32 := lt_of_lt_of_le hx (by norm_num [PRIME])
  obtain ⟨xB, hpx, hlx, hfx⟩ := pad32_spec x.number hx256
  refine ⟨xB, ?_, hlx, hfx⟩
  unfold secSerialize
  dsimp only
  rw [hpx]
  rfl

theorem new_of_reduced {a : FieldElement} (ha : Reduced a) :
    FieldElement.new a.number = a := by
  unfold FieldElement.new
  exact FieldElement.ext_number (Nat.mod_eq_of_lt ha)

theorem sec_round_trip_uncompressed (x y : FieldElement) (hx : Reduced x)
    (hy : Reduced y) (hc : OnCurve x y) :
    ∃ bytes, secSerialize (.normal x y) false = .ok bytes
      ∧ secDeserialize bytes = some (.ok (.normal x y)) := by
  obtain ⟨xB, yB, hser, hlx, hly, hfx, hfy⟩ := secSerialize_uncompressed x y hx hy
  refine ⟨_, hser, ?_⟩
  have hlen : (0x04 :: (xB ++ yB)).length = 65 := by
    simp [hlx, hly]
  unfold secDeserialize
  rw [hlen, if_neg (by norm_num), if_pos (by rfl)]
  rw [if_neg (by norm_num)]
  have hdrop1 : (0x04 :: (xB ++ yB)).drop 1 = xB ++ yB := rfl
  have htake : ((0x04 :: (xB ++ yB)).drop 1).take 32 = xB := by
    rw [hdrop1, ← hlx, List.take_left]
  have hdrop33 : (0x04 :: (xB ++ yB)).drop 33 = yB := by
    show (xB ++ yB).drop 32 = yB
    rw [← hlx, List.drop_left]
  have htake2 : ((0x04 :: (xB ++ yB)).drop 33).take 32 = yB := by
    rw [hdrop33, ← hly, List.take_length]
  rw [htake, htake2, hfx, hfy, new_of_reduced hx, new_of_reduced hy]
  show some (Point.new x y) = _
  unfold Point.new
  rw [if_pos ((contains_iff x y).mpr hc)]

theorem add_inv_reduced_of_ne_zero {a : FieldElement} (ha : Reduced a)
    (h0 : a.number ≠ 0) : Reduced a.add_inv := by
  have h : a.number < PRIME := ha
  show PRIME - a.number < PRIME
  omega

theorem sec_round_trip_compressed (x y : FieldElement) (hx : Reduced x)
    (hy : Reduced y) (hc : OnCurve x y) :
    ∃ bytes, secSerialize (.normal x y) true = .ok bytes
      ∧ secDeserialize bytes = some (.ok (.normal x y)) := by
  obtain ⟨xB, hser, hlx, hfx⟩ := secSerialize_compressed x y hx
  refine ⟨_, hser, ?_⟩
  have hy0 : y.number ≠ 0 := on_curve_y_ne_zero hc
  have hylt : y.number < PRIME := hy
  have hYne : toZ y ≠ 0 := fun h => hy0 ((toZ_zero_iff hy).mp h)
  set tag := (if y.number % 2 = 0 then 0x02 else 0x03) with htag
  have htagne : ¬ (tag :: xB).headD 0 = 0x04 := by
    show ¬ tag = 0x04
    rw [htag]; split <;> norm_num
  have hlen : (tag :: xB).length = 33 := by simp [hlx]
  unfold secDeserialize
  rw [hlen, if_neg (by norm_num), if_neg htagne]
  dsimp only
  have hdrop : (tag :: xB).drop 1 = xB := rfl
  rw [hdrop, hfx, new_of_reduced hx]
  have halpha : toZ (fadd (x.pow 3) Bconst) = toZ y ^ 2 := by
    rw [toZ_fadd, toZ_pow_three, toZ_Bconst]
    unfold OnCurve at hc
    linear_combination - hc
  have hbeta : toZ (FieldElement.sqrt (fadd (x.pow 3) Bconst)) = toZ y
      ∨ toZ (FieldElement.sqrt (fadd (x.pow 3) Bconst)) = - toZ y := by
    rw [toZ_sqrt, halpha]
    exact sqrt_of_square hYne
  by_cases hbeq : FieldElement.sqrt (fadd (x.pow 3) Bconst) = y
  · rw [hbeq]
    rcases Nat.mod_two_eq_zero_or_one y.number with hpar | hpar
    · simp [htag, hpar]
    · simp [htag, hpar]
  · have hbneg : toZ (FieldElement.sqrt (fadd (x.pow 3) Bconst)) = - toZ y := by
      rcases hbeta with h | h
      · exact absurd (toZ_inj (sqrt_reduced _) hy h) hbeq
      · exact h
    have hinvred : Reduced (FieldElement.add_inv y) := add_inv_reduced_of_ne_zero hy hy0
    have hbnum : (FieldElement.sqrt (fadd (x.pow 3) Bconst)).number = PRIME - y.number := by
      have h1 : toZ (FieldElement.sqrt (fadd (x.pow 3) Bconst))
          = toZ (FieldElement.add_inv y) := by
        rw [toZ_add_inv y (le_of_lt hy), hbneg]
      have h2 := toZ_inj (sqrt_reduced _) hinvred h1
      rw [h2]
      rfl
    have hP2 : PRIME % 2 = 1 := by decide
    rcases Nat.mod_two_eq_zero_or_one y.number with hpar | hpar
    · have hpm : (PRIME - y.number) % 2 = 1 := by omega
      simp only [htag, hpar, hbnum, List.headD_cons]
      rw [if_neg (by simp [hbnum, hpm, hpar])]
      rw [show PRIME - (PRIME - y.number) = y.number by omega, new_of_reduced hy]
    · have hpm : (PRIME - y.number) % 2 = 0 := by omega
      simp only [htag, hpar, hbnum, List.headD_cons]
      rw [if_neg (by simp [hbnum, hpm, hpar])]
      rw [show PRIME - (PRIME - y.number) = y.number by omega, new_of_reduced hy]

/-- C6: SEC round trip: for every secret whose derived public key is a
normal point, and for both compressed flags, `Point::deserialize`
applied to `Point::serialize` returns the original point. -/
theorem sec_round_trip (d : Nat) (x y : FieldElement)
    (hk : pmul G d = .normal x y) (compressed : Bool) :
    ∃ bytes, secSerialize (.normal x y) compressed = .ok bytes
      ∧ secDeserialize bytes = some (.ok (.normal x y)) := by
  have hgood : GoodPoint (pmul G d) := pmul_good G d G_good
  rw [hk] at hgood
  obtain ⟨hx, hy, hc⟩ := hgood
  cases compressed
  · exact sec_round_trip_uncompressed x y hx hy hc
  · exact sec_round_trip_compressed x y hx hy hc

/-- C6 witness: the secret `1` derives the public key `G`; the round
trip holds for both the compressed and the uncompressed encoding. -/
theorem sec_round_trip_witness :
    (∃ bytes, secSerialize (.normal (FieldElement.new GX) (FieldElement.new GY)) true
        = .ok bytes
      ∧ secDeserialize bytes
        = some (.ok (.normal (FieldElement.new GX) (FieldElement.new GY))))
    ∧ (∃ bytes, secSerialize (.normal (FieldElement.new GX) (FieldElement.new GY)) false
        = .ok bytes
      ∧ secDeserialize bytes
        = some (.ok (.normal (FieldElement.new GX) (FieldElement.new GY)))) :=
  ⟨sec_round_trip 1 _ _ (by decide) true, sec_round_trip 1 _ _ (by decide) false⟩

end Oxicoin
